import Mathlib

/-!
# Verification of the chomp solver (`src/main.rs`)

Shallow embedding of the Rust program in Lean 4.  Board states are the
`u128` bitmasks of the source, modelled as `Nat` (every genuine `u128`
value is `< 2 ^ 128`; the bitwise complement `!m : u128` is modelled as
`(2 ^ 128 - 1) ^^^ m`).  The three dimension constants are gathered in a
`Config` structure so that both the shipped configuration
(`X_DIM = 2, Y_DIM = 3, Z_DIM = 19`) and the small test configuration
(`1 × 1 × 2`) can be studied; the structure carries the data-model
invariant `TOT ≤ 128` that the source's fixed constants satisfy.
-/

/-- The three board-shape constants of the source (`X_DIM`, `Y_DIM`,
`Z_DIM`), together with the data-model invariant that the block count
fits in the 128-bit state word. -/
structure Config where
  X_DIM : Nat
  Y_DIM : Nat
  Z_DIM : Nat
  tot_le : X_DIM * Y_DIM * Z_DIM ≤ 128

/-- `TOT = X_DIM * Y_DIM * Z_DIM`, the total number of blocks. -/
def Config.TOT (c : Config) : Nat := c.X_DIM * c.Y_DIM * c.Z_DIM

/-- The configuration shipped in the source: `X_DIM = 2`, `Y_DIM = 3`,
`Z_DIM = 19`, hence `TOT = 114`. -/
def cfg0 : Config := ⟨2, 3, 19, by decide⟩

/-- The minimal `1 × 1 × 2` test configuration (`TOT = 2`). -/
def cfg112 : Config := ⟨1, 1, 2, by decide⟩

/-- A lattice coordinate `(x, y, z)`. -/
abbrev Coord := Nat × Nat × Nat

/-- `index_to_coord`: block index to coordinate, by mixed-radix
decomposition (`x = i % X_DIM`, `y = (i / X_DIM) % Y_DIM`,
`z = i / (X_DIM * Y_DIM)`). -/
def index_to_coord (c : Config) (i : Nat) : Coord :=
  (i % c.X_DIM, (i / c.X_DIM) % c.Y_DIM, i / (c.X_DIM * c.Y_DIM))

/-- `coord_ge a b`: componentwise `a.0 >= b.0 && a.1 >= b.1 && a.2 >= b.2`. -/
def coord_ge (a b : Coord) : Bool :=
  decide (a.1 ≥ b.1) && decide (a.2.1 ≥ b.2.1) && decide (a.2.2 ≥ b.2.2)

/-- The `u128` bitwise complement `!m`, as a function on `Nat`. -/
def u128_not (m : Nat) : Nat := (2 ^ 128 - 1) ^^^ m

/-- `removal_mask chosen`: the loop
`for i in 0..TOT { if coord_ge(index_to_coord(i), chosen) { mask |= 1 << i } }`. -/
def removal_mask (c : Config) (chosen : Coord) : Nat :=
  (List.range c.TOT).foldl
    (fun mask i =>
      if coord_ge (index_to_coord c i) chosen then mask ||| (1 <<< i) else mask)
    0

/-- `legal_moves state`: the loop over `i in 0..TOT` that, for every set
bit whose coordinate is not the poison block `(0,0,0)` and whose removal
mask does not contain bit 0, pushes `(chosen, state & !rm_mask)`. -/
def legal_moves (c : Config) (state : Nat) : List (Coord × Nat) :=
  (List.range c.TOT).filterMap (fun i =>
    if state &&& (1 <<< i) = 0 then none
    else
      let chosen := index_to_coord c i
      if chosen = ((0, 0, 0) : Coord) then none
      else
        let rm_mask := removal_mask c chosen
        if rm_mask &&& 1 ≠ 0 then none
        else some (chosen, state &&& u128_not rm_mask))

/-! ## Bit-level lemmas about the move generator -/

lemma coord_ge_refl (a : Coord) : coord_ge a a = true := by
  simp [coord_ge]

lemma testBit_one_shiftLeft (i j : Nat) : (1 <<< i).testBit j = decide (i = j) := by
  rw [Nat.shiftLeft_eq, one_mul, Nat.testBit_two_pow]

lemma and_shiftLeft_eq_zero (n i : Nat) :
    (n &&& (1 <<< i) = 0) ↔ n.testBit i = false := by
  rw [Nat.shiftLeft_eq, one_mul, Nat.and_two_pow]
  cases hb : n.testBit i <;> simp [(Nat.two_pow_pos i).ne' ]

lemma and_one_eq_zero (n : Nat) : (n &&& 1 = 0) ↔ n.testBit 0 = false := by
  rw [Nat.and_one_is_mod, Nat.testBit_zero, decide_eq_false_iff_not]
  omega

lemma range_foldl_or_testBit (p : Nat → Bool) (n acc j : Nat) :
    ((((List.range n).foldl
        (fun mask i => if p i then mask ||| (1 <<< i) else mask) acc)).testBit j = true)
      ↔ (acc.testBit j = true ∨ (j < n ∧ p j = true)) := by
  induction n generalizing acc with
  | zero => simp
  | succ n ih =>
    rw [List.range_succ, List.foldl_append, List.foldl_cons, List.foldl_nil]
    by_cases h : p n
    · rw [if_pos h, Nat.testBit_or, Bool.or_eq_true, testBit_one_shiftLeft,
        decide_eq_true_eq, ih]
      constructor
      · rintro ((hacc | ⟨hj, hp⟩) | rfl)
        · exact Or.inl hacc
        · exact Or.inr ⟨Nat.lt_succ_of_lt hj, hp⟩
        · exact Or.inr ⟨Nat.lt_succ_self _, h⟩
      · rintro (hacc | ⟨hj, hp⟩)
        · exact Or.inl (Or.inl hacc)
        · rcases Nat.lt_succ_iff_lt_or_eq.mp hj with hj' | rfl
          · exact Or.inl (Or.inr ⟨hj', hp⟩)
          · exact Or.inr rfl
    · rw [if_neg h, ih]
      constructor
      · rintro (hacc | ⟨hj, hp⟩)
        · exact Or.inl hacc
        · exact Or.inr ⟨Nat.lt_succ_of_lt hj, hp⟩
      · rintro (hacc | ⟨hj, hp⟩)
        · exact Or.inl hacc
        · rcases Nat.lt_succ_iff_lt_or_eq.mp hj with hj' | rfl
          · exact Or.inr ⟨hj', hp⟩
          · exact absurd hp h

lemma removal_mask_testBit (c : Config) (chosen : Coord) (j : Nat) :
    ((removal_mask c chosen).testBit j = true)
      ↔ (j < c.TOT ∧ coord_ge (index_to_coord c j) chosen = true) := by
  rw [removal_mask, range_foldl_or_testBit]
  simp

/-- The per-index branch of `legal_moves`, with the raw machine tests
rewritten into `testBit` form. -/
lemma legal_moves_eq_filterMap (c : Config) (state : Nat) :
    legal_moves c state = (List.range c.TOT).filterMap (fun i =>
      if state.testBit i = true ∧ index_to_coord c i ≠ ((0, 0, 0) : Coord)
          ∧ (removal_mask c (index_to_coord c i)).testBit 0 = false
      then some (index_to_coord c i,
                 state &&& u128_not (removal_mask c (index_to_coord c i)))
      else none) := by
  rw [legal_moves]
  apply List.filterMap_congr
  intro i _
  by_cases h1 : state &&& (1 <<< i) = 0
  · rw [if_pos h1]
    rw [and_shiftLeft_eq_zero] at h1
    simp [h1]
  · rw [if_neg h1]
    rw [and_shiftLeft_eq_zero, Bool.not_eq_false] at h1
    by_cases h2 : index_to_coord c i = ((0, 0, 0) : Coord)
    · simp [h1, h2]
    · by_cases h3 : removal_mask c (index_to_coord c i) &&& 1 = 0
      · rw [and_one_eq_zero] at h3
        have h3' : ¬ removal_mask c (index_to_coord c i) % 2 = 1 := by
          rw [Nat.testBit_zero, decide_eq_false_iff_not] at h3
          exact h3
        simp [h1, h2, h3, h3']
      · rw [and_one_eq_zero, Bool.not_eq_false] at h3
        have h3' : removal_mask c (index_to_coord c i) % 2 = 1 := by
          rw [Nat.testBit_zero, decide_eq_true_eq] at h3
          exact h3
        simp [h1, h2, h3, h3']

lemma mem_legal_moves {c : Config} {state : Nat} {mv : Coord × Nat} :
    mv ∈ legal_moves c state
      ↔ ∃ i, i < c.TOT ∧ state.testBit i = true
          ∧ index_to_coord c i ≠ ((0, 0, 0) : Coord)
          ∧ (removal_mask c (index_to_coord c i)).testBit 0 = false
          ∧ mv = (index_to_coord c i,
                  state &&& u128_not (removal_mask c (index_to_coord c i))) := by
  rw [legal_moves_eq_filterMap, List.mem_filterMap]
  constructor
  · rintro ⟨i, hi, hf⟩
    rw [List.mem_range] at hi
    by_cases hp : state.testBit i = true ∧ index_to_coord c i ≠ ((0, 0, 0) : Coord)
        ∧ (removal_mask c (index_to_coord c i)).testBit 0 = false
    · rw [if_pos hp] at hf
      exact ⟨i, hi, hp.1, hp.2.1, hp.2.2, (Option.some_inj.mp hf).symm⟩
    · rw [if_neg hp] at hf
      exact absurd hf (by simp)
  · rintro ⟨i, hi, h1, h2, h3, hmv⟩
    refine ⟨i, List.mem_range.mpr hi, ?_⟩
    rw [if_pos ⟨h1, h2, h3⟩, hmv]

/-! ## The child state is a strict sub-bit-set of the parent -/

lemma child_testBit (state rm j : Nat) :
    (state &&& u128_not rm).testBit j
      = (state.testBit j && (decide (j < 128) ^^ rm.testBit j)) := by
  rw [u128_not, Nat.testBit_and, Nat.testBit_xor, Nat.testBit_two_pow_sub_one]

lemma child_subset {state rm j : Nat}
    (h : (state &&& u128_not rm).testBit j = true) : state.testBit j = true := by
  rw [child_testBit] at h
  cases hs : state.testBit j
  · rw [hs, Bool.false_and] at h
    exact absurd h (by simp)
  · rfl

lemma child_chosen_bit_false (c : Config) (state i : Nat) (hi : i < c.TOT) :
    (state &&& u128_not (removal_mask c (index_to_coord c i))).testBit i = false := by
  have hrm : (removal_mask c (index_to_coord c i)).testBit i = true :=
    (removal_mask_testBit c _ i).mpr ⟨hi, coord_ge_refl _⟩
  have h128 : i < 128 := lt_of_lt_of_le hi c.tot_le
  rw [child_testBit, hrm, decide_eq_true h128]
  simp

lemma legal_moves_snd_lt {c : Config} {state : Nat} {mv : Coord × Nat}
    (h : mv ∈ legal_moves c state) : mv.2 < state := by
  rcases mem_legal_moves.mp h with ⟨i, hi, hbit, -, -, hmv⟩
  have h2 : mv.2 = state &&& u128_not (removal_mask c (index_to_coord c i)) := by
    rw [hmv]
  rw [h2]
  refine Nat.lt_of_le_of_ne Nat.and_le_left fun he => ?_
  have hc := child_chosen_bit_false c state i hi
  rw [he, hbit] at hc
  exact Bool.noConfusion hc

/-! ## The solver -/

/-- The solver `win`.  The source function carries a concurrent memo
table whose stored value is a pure function of the key; this is the
memo-free value it computes (the memo-table behaviour itself is modelled
separately by `win_memo`).  Termination is by the strict numeric
decrease of the child state (`legal_moves_snd_lt`). -/
def win (c : Config) (state : Nat) : Bool :=
  if state = 1 then false
  else
    let moves := legal_moves c state
    if moves.isEmpty then false
    else moves.attach.any (fun mv => !win c mv.1.2)
termination_by state
decreasing_by exact legal_moves_snd_lt mv.2

/-- `winning_moves`: keep the legal moves whose resulting state is a
loss for the opponent and return their chosen coordinates. -/
def winning_moves (c : Config) (state : Nat) : List Coord :=
  (legal_moves c state).filterMap
    (fun mv => if !win c mv.2 then some mv.1 else none)

lemma any_attach {α : Type} (l : List α) (f : α → Bool) :
    (l.attach.any fun x => f x.1) = l.any f := by
  cases hb : l.any f
  · rw [Bool.eq_false_iff]
    intro hc
    rcases List.any_eq_true.mp hc with ⟨x, -, hx⟩
    rw [Bool.eq_false_iff] at hb
    exact hb (List.any_eq_true.mpr ⟨x.1, x.2, hx⟩)
  · rcases List.any_eq_true.mp hb with ⟨a, ha, hfa⟩
    exact List.any_eq_true.mpr ⟨⟨a, ha⟩, List.mem_attach l _, hfa⟩

/-- One-step unfolding of `win`, with the `isEmpty` test absorbed into
`List.any` (both return `false` on an empty move list). -/
lemma win_eq_any (c : Config) (state : Nat) :
    win c state
      = if state = 1 then false
        else (legal_moves c state).any (fun mv => !win c mv.2) := by
  rw [win]
  by_cases h1 : state = 1
  · rw [if_pos h1, if_pos h1]
  · rw [if_neg h1, if_neg h1]
    show (if (legal_moves c state).isEmpty then false
          else (legal_moves c state).attach.any (fun mv => !win c mv.1.2))
        = (legal_moves c state).any (fun mv => !win c mv.2)
    cases hE : (legal_moves c state).isEmpty
    · rw [if_neg (fun h => Bool.false_ne_true h)]
      exact any_attach (legal_moves c state) (fun mv => !win c mv.2)
    · rw [if_pos rfl, List.isEmpty_iff.mp hE]
      rfl

/-! ## The memoised solver

The source's `win` threads an `Arc<DashMap<u128, bool>>`.  Since the
stored value is a pure function of the key, the concurrent table is
modelled as an explicitly threaded association list, and the parallel
`par_iter().any` as a sequential fold computing the same disjunction. -/

/-- `win` with the memo table made explicit: returns the boolean answer
together with the updated table.  The `state == 1` base case returns
before the table is consulted, exactly as in the source. -/
def win_memo (c : Config) (state : Nat) (memo : List (Nat × Bool)) :
    Bool × List (Nat × Bool) :=
  if state = 1 then (false, memo)
  else
    match memo.lookup state with
    | some res => (res, memo)
    | none =>
      let moves := legal_moves c state
      if moves.isEmpty then (false, (state, false) :: memo)
      else
        let r := moves.attach.foldl
          (fun acc mv =>
            let p := win_memo c mv.1.2 acc.2
            (acc.1 || !p.1, p.2))
          ((false, memo) : Bool × List (Nat × Bool))
        (r.1, (state, r.1) :: r.2)
termination_by state
decreasing_by exact legal_moves_snd_lt mv.2

/-! ## Population count -/

/-- Number of set bits of a natural number (the number of blocks present
in a board state). -/
def popCount (n : Nat) : Nat :=
  if h : n = 0 then 0 else n % 2 + popCount (n / 2)
termination_by n
decreasing_by exact Nat.div_lt_self (Nat.pos_of_ne_zero h) Nat.one_lt_two

lemma popCount_zero : popCount 0 = 0 := by
  rw [popCount]
  rfl

lemma popCount_of_ne_zero {n : Nat} (h : n ≠ 0) :
    popCount n = n % 2 + popCount (n / 2) := by
  rw [popCount]
  exact dif_neg h

lemma mod_two_le_of_subset {a b : Nat}
    (hsub : ∀ j, a.testBit j = true → b.testBit j = true) : a % 2 ≤ b % 2 := by
  have h0 := hsub 0
  rw [Nat.testBit_zero, Nat.testBit_zero] at h0
  by_cases h : a % 2 = 1
  · have hb1 : b % 2 = 1 := of_decide_eq_true (h0 (decide_eq_true h))
    omega
  · omega

lemma popCount_le_of_subset :
    ∀ b a : Nat, (∀ j, a.testBit j = true → b.testBit j = true) →
      popCount a ≤ popCount b := by
  intro b
  induction b using Nat.strong_induction_on with
  | _ b ih =>
    intro a hsub
    by_cases ha : a = 0
    · subst ha
      rw [popCount_zero]
      exact Nat.zero_le _
    · have hb : b ≠ 0 := by
        rcases Nat.exists_most_significant_bit ha with ⟨i, hbit, -⟩
        intro hb0
        subst hb0
        have hz := hsub i hbit
        rw [Nat.zero_testBit] at hz
        exact Bool.noConfusion hz
      have hdiv : popCount (a / 2) ≤ popCount (b / 2) := by
        apply ih (b / 2) (Nat.div_lt_self (Nat.pos_of_ne_zero hb) Nat.one_lt_two)
        intro j hj
        rw [Nat.testBit_div_two] at hj ⊢
        exact hsub (j + 1) hj
      have hmod := mod_two_le_of_subset hsub
      rw [popCount_of_ne_zero ha, popCount_of_ne_zero hb]
      omega

lemma popCount_lt_of_ssubset :
    ∀ b a : Nat, (∀ j, a.testBit j = true → b.testBit j = true) →
      ∀ i, b.testBit i = true → a.testBit i = false → popCount a < popCount b := by
  intro b
  induction b using Nat.strong_induction_on with
  | _ b ih =>
    intro a hsub i hbi hai
    have hb : b ≠ 0 := by
      intro hb0
      subst hb0
      rw [Nat.zero_testBit] at hbi
      exact Bool.noConfusion hbi
    have hmod := mod_two_le_of_subset hsub
    have hsubdiv : ∀ j, (a / 2).testBit j = true → (b / 2).testBit j = true := by
      intro j hj
      rw [Nat.testBit_div_two] at hj ⊢
      exact hsub (j + 1) hj
    rcases i with _ | j
    · rw [Nat.testBit_zero] at hbi hai
      have hb1 : b % 2 = 1 := of_decide_eq_true hbi
      have ha0 : a % 2 ≠ 1 := by
        intro h
        rw [decide_eq_true h] at hai
        exact Bool.noConfusion hai
      have hdiv := popCount_le_of_subset (b / 2) (a / 2) hsubdiv
      by_cases ha : a = 0
      · subst ha
        rw [popCount_zero, popCount_of_ne_zero hb]
        omega
      · rw [popCount_of_ne_zero ha, popCount_of_ne_zero hb]
        omega
    · have hdivlt : popCount (a / 2) < popCount (b / 2) := by
        apply ih (b / 2) (Nat.div_lt_self (Nat.pos_of_ne_zero hb) Nat.one_lt_two)
          (a / 2) hsubdiv j
        · rw [Nat.testBit_div_two]
          exact hbi
        · rw [Nat.testBit_div_two]
          exact hai
      by_cases ha : a = 0
      · subst ha
        rw [popCount_zero, popCount_of_ne_zero hb]
        rw [popCount_zero] at hdivlt
        omega
      · rw [popCount_of_ne_zero ha, popCount_of_ne_zero hb]
        omega

lemma popCount_le_of_lt_two_pow :
    ∀ k n : Nat, n < 2 ^ k → popCount n ≤ k := by
  intro k
  induction k with
  | zero =>
    intro n h
    have hn : n = 0 := by omega
    subst hn
    rw [popCount_zero]
  | succ k ih =>
    intro n h
    by_cases hn : n = 0
    · subst hn
      rw [popCount_zero]
      exact Nat.zero_le _
    · have h2 : n / 2 < 2 ^ k := by
        rw [Nat.div_lt_iff_lt_mul Nat.zero_lt_two, ← Nat.pow_succ]
        exact h
      have := ih (n / 2) h2
      rw [popCount_of_ne_zero hn]
      omega

lemma legal_moves_popCount_lt {c : Config} {state : Nat} {mv : Coord × Nat}
    (h : mv ∈ legal_moves c state) : popCount mv.2 < popCount state := by
  rcases mem_legal_moves.mp h with ⟨i, hi, hbit, -, -, hmv⟩
  have hsnd : mv.2 = state &&& u128_not (removal_mask c (index_to_coord c i)) := by
    rw [hmv]
  refine popCount_lt_of_ssubset state mv.2 ?_ i hbit ?_
  · intro j hj
    rw [hsnd] at hj
    exact child_subset hj
  · rw [hsnd]
    exact child_chosen_bit_false c state i hi

/-! ## Computed facts about the shipped configuration -/

set_option maxHeartbeats 1000000 in
set_option maxRecDepth 10000 in
lemma cfg0_index_injective : ∀ i, i < cfg0.TOT → ∀ j, j < cfg0.TOT →
    index_to_coord cfg0 i = index_to_coord cfg0 j → i = j := by decide

set_option maxRecDepth 10000 in
lemma cfg0_index_ne_origin : ∀ i, i < cfg0.TOT → i ≠ 0 →
    index_to_coord cfg0 i ≠ ((0, 0, 0) : Coord) := by decide

set_option maxHeartbeats 1000000 in
set_option maxRecDepth 10000 in
lemma cfg0_mask_bit0 : ∀ i, i < cfg0.TOT → i ≠ 0 →
    (removal_mask cfg0 (index_to_coord cfg0 i)).testBit 0 = false := by decide

set_option maxHeartbeats 1000000 in
set_option maxRecDepth 10000 in
lemma cfg0_index_surjective : ∀ x, x < cfg0.X_DIM → ∀ y, y < cfg0.Y_DIM →
    ∀ z, z < cfg0.Z_DIM → ∃ i, i < cfg0.TOT ∧ index_to_coord cfg0 i = (x, y, z) := by
  decide

/-! ## Generic list lemmas -/

lemma filterMap_guard_eq_filter_map {α β : Type} (p : α → Bool) (g : α → β) :
    ∀ l : List α, (l.filterMap fun a => if p a then some (g a) else none)
      = (l.filter p).map g := by
  intro l
  induction l with
  | nil => rfl
  | cons a l ih =>
    rw [List.filterMap_cons, List.filter_cons]
    cases hpa : p a <;> simp [hpa, ih]

lemma map_filterMap_eq_filter_map {α β γ : Type} (f : α → Option β) (g : β → γ)
    (p : α → Bool) (q : α → γ) :
    ∀ l : List α, (∀ a ∈ l, (f a).map g = if p a then some (q a) else none) →
      (l.filterMap f).map g = (l.filter p).map q := by
  intro l
  induction l with
  | nil => intro _; rfl
  | cons a l ih =>
    intro h
    have ha := h a (List.mem_cons_self a l)
    have ht := ih fun b hb => h b (List.mem_cons_of_mem a hb)
    rw [List.filterMap_cons, List.filter_cons]
    cases hfa : f a with
    | none =>
      rw [hfa] at ha
      cases hpa : p a
      · simp [hpa, ht]
      · rw [hpa] at ha
        simp at ha
    | some b =>
      rw [hfa] at ha
      cases hpa : p a
      · rw [hpa] at ha
        simp at ha
      · rw [hpa] at ha
        simp only [Option.map_some, if_pos] at ha
        simp [hpa, ht, Option.some_inj.mp ha]

/-! ## The claims -/

/-- **C1.** For every board state (in particular every state reachable
from the initial one), `win` returns `true` iff some legal move produced
by `legal_moves` leads to a child state on which `win` returns `false`;
a state with no legal moves yields `false`. -/
theorem claim_C1 :
    ∀ state : Nat,
      (win cfg0 state = true ↔
        ∃ mv ∈ legal_moves cfg0 state, win cfg0 mv.2 = false) ∧
      (legal_moves cfg0 state = [] → win cfg0 state = false) := by
  intro state
  constructor
  · rw [win_eq_any]
    by_cases h1 : state = 1
    · subst h1
      rw [if_pos rfl]
      have hlm : legal_moves cfg0 1 = [] := by decide
      rw [hlm]
      simp
    · rw [if_neg h1, List.any_eq_true]
      constructor
      · rintro ⟨mv, hmem, hmv⟩
        exact ⟨mv, hmem, by simpa using hmv⟩
      · rintro ⟨mv, hmem, hmv⟩
        exact ⟨mv, hmem, by simp [hmv]⟩
  · intro hnil
    rw [win_eq_any, hnil]
    by_cases h1 : state = 1 <;> simp [h1]

/-- Witness for **C1**: the empty board `0` has no legal moves, and
`win` returns `false` on it. -/
theorem claim_C1_witness : win cfg0 0 = false :=
  (claim_C1 0).2 (by decide)

/-- **C2 (counterexample).** The claim asserts that bit 0 is set in the
resulting state of every emitted move for *any* input state.  For the
input state `2` (bit 0 not set), `legal_moves` emits the move
`((1,0,0), 0)` whose resulting state `0` has bit 0 clear. -/
theorem claim_C2_counterexample :
    (((1, 0, 0), (0 : Nat)) ∈ legal_moves cfg0 2) ∧ Nat.testBit 0 0 = false := by
  constructor
  · have hlm : legal_moves cfg0 2 = [((1, 0, 0), 0)] := by decide
    rw [hlm]
    exact List.mem_singleton.mpr rfl
  · rfl

/-- **C2 (amended).** For every input state and every move emitted by
`legal_moves`: the chosen coordinate is that of a block index present in
the state, it is not `(0,0,0)`, bit 0 of the resulting state *equals*
bit 0 of the input state (the removal mask never clears it — so bit 0 is
set in the result whenever it is set in the input), and the resulting
state is a strict subset of the input state as a bit-set. -/
theorem claim_C2 :
    ∀ state : Nat, ∀ mv ∈ legal_moves cfg0 state,
      (∃ i, i < cfg0.TOT ∧ mv.1 = index_to_coord cfg0 i ∧ state.testBit i = true) ∧
      mv.1 ≠ ((0, 0, 0) : Coord) ∧
      mv.2.testBit 0 = state.testBit 0 ∧
      (∀ j, mv.2.testBit j = true → state.testBit j = true) ∧
      mv.2 ≠ state := by
  intro state mv hmem
  rcases mem_legal_moves.mp hmem with ⟨i, hi, hbit, hne, hrm0, hmv⟩
  have hfst : mv.1 = index_to_coord cfg0 i := by rw [hmv]
  have hsnd : mv.2 = state &&& u128_not (removal_mask cfg0 (index_to_coord cfg0 i)) := by
    rw [hmv]
  refine ⟨⟨i, hi, hfst, hbit⟩, ?_, ?_, ?_, ?_⟩
  · rw [hfst]
    exact hne
  · rw [hsnd, child_testBit, hrm0]
    simp
  · intro j hj
    rw [hsnd] at hj
    exact child_subset hj
  · intro he
    have hc := child_chosen_bit_false cfg0 state i hi
    rw [← hsnd, he, hbit] at hc
    exact Bool.noConfusion hc

/-- Witness for **C2 (amended)**: the move `((1,0,0), 1)` emitted from
state `3` satisfies the amended conclusion. -/
theorem claim_C2_witness :
    (((1, 0, 0), (1 : Nat)) ∈ legal_moves cfg0 3) ∧
      ((1, 0, 0) : Coord) ≠ (0, 0, 0) ∧
      Nat.testBit 1 0 = Nat.testBit 3 0 ∧ (1 : Nat) ≠ 3 := by
  have hmem : (((1, 0, 0), (1 : Nat)) ∈ legal_moves cfg0 3) := by
    have hlm : legal_moves cfg0 3 = [((1, 0, 0), 1)] := by decide
    rw [hlm]
    exact List.mem_singleton.mpr rfl
  have h := claim_C2 3 ((1, 0, 0), 1) hmem
  exact ⟨hmem, h.2.1, h.2.2.1, h.2.2.2.2⟩

/-- **C3.** For every board state, `legal_moves` emits exactly one move
per present non-poison block index, in increasing block-index order (the
chosen coordinates are the images of exactly the indices
`{ i < TOT | bit i set, i ≠ 0 }` in `range` order), with no duplicates;
equivalently, the bit-0 removal-mask guard never suppresses a move whose
chosen coordinate is not `(0,0,0)`. -/
theorem claim_C3 :
    ∀ state : Nat,
      (legal_moves cfg0 state).map Prod.fst
          = ((List.range cfg0.TOT).filter
              (fun i => state.testBit i && !decide (i = 0))).map (index_to_coord cfg0) ∧
      ((legal_moves cfg0 state).map Prod.fst).Nodup := by
  intro state
  have hmain : (legal_moves cfg0 state).map Prod.fst
      = ((List.range cfg0.TOT).filter
          (fun i => state.testBit i && !decide (i = 0))).map (index_to_coord cfg0) := by
    rw [legal_moves_eq_filterMap]
    apply map_filterMap_eq_filter_map
    intro i hi
    rw [List.mem_range] at hi
    by_cases h1 : state.testBit i = true
    · by_cases h2 : i = 0
      · subst h2
        have h0 : index_to_coord cfg0 0 = ((0, 0, 0) : Coord) := rfl
        simp [h1, h0]
      · have hne := cfg0_index_ne_origin i hi h2
        have hrm := cfg0_mask_bit0 i hi h2
        simp [h1, h2, hne, hrm]
        exact hne
    · rw [Bool.not_eq_true] at h1
      simp [h1]
  refine ⟨hmain, ?_⟩
  rw [hmain]
  apply List.Nodup.map_on
  · intro x hx y hy hxy
    rw [List.mem_filter, List.mem_range] at hx hy
    exact cfg0_index_injective x hx.1 y hy.1 hxy
  · exact List.Nodup.filter _ (List.nodup_range _)

/-- **C4.** `win` applied to the terminal state `1` returns `false`
before the memo table is consulted: for the explicit-memo model, the
result is `false` for *every* table contents (even one wrongly mapping
`1` to `true`), and the table is returned unchanged. -/
theorem claim_C4 :
    ∀ (c : Config) (memo : List (Nat × Bool)),
      win c 1 = false ∧ win_memo c 1 memo = (false, memo) := by
  intro c memo
  constructor
  · rw [win_eq_any, if_pos rfl]
  · rw [win_memo, if_pos rfl]

/-- **C5.** `winning_moves` returns exactly the chosen coordinates of
the legal moves whose resulting state is losing for the opponent, in
`legal_moves` enumeration order. -/
theorem claim_C5 :
    ∀ (c : Config) (state : Nat),
      winning_moves c state
        = ((legal_moves c state).filter (fun mv => !win c mv.2)).map Prod.fst := by
  intro c state
  rw [winning_moves]
  exact filterMap_guard_eq_filter_map (fun mv => !win c mv.2) Prod.fst (legal_moves c state)

/-- **C6.** In the `1 × 1 × 2` configuration, the initial state `3` is
winning and its unique winning move is `(0,0,1)`, which leaves exactly
the losing terminal state `1`. -/
theorem claim_C6 :
    win cfg112 3 = true ∧ winning_moves cfg112 3 = [(0, 0, 1)] := by
  have hlm : legal_moves cfg112 3 = [((0, 0, 1), 1)] := by decide
  have h1 : win cfg112 1 = false := by rw [win_eq_any, if_pos rfl]
  have h3 : win cfg112 3 = true := by
    rw [win_eq_any, if_neg (by decide), hlm]
    simp [h1]
  refine ⟨h3, ?_⟩
  rw [winning_moves, hlm]
  simp [h1]

/-- **C7.** Every emitted move strictly decreases the population count
of the state (at least the chosen block is removed), and the population
count of any representable state is at most `TOT`; hence the recursion
of `win` (which descends only through `legal_moves` children) has depth
at most `TOT`.  Termination itself is witnessed by `win` being a total
function. -/
theorem claim_C7 :
    (∀ state : Nat, ∀ mv ∈ legal_moves cfg0 state, popCount mv.2 < popCount state) ∧
    (∀ state : Nat, state < 2 ^ cfg0.TOT → popCount state ≤ cfg0.TOT) := by
  constructor
  · intro state mv hmem
    exact legal_moves_popCount_lt hmem
  · intro state h
    exact popCount_le_of_lt_two_pow _ state h

/-- Witness for **C7**: the move `((1,0,0), 1)` from state `3` strictly
decreases the population count, and state `3` has at most `TOT` bits. -/
theorem claim_C7_witness : popCount 1 < popCount 3 ∧ popCount 3 ≤ cfg0.TOT := by
  constructor
  · have hmem : (((1, 0, 0), (1 : Nat)) ∈ legal_moves cfg0 3) := by
      have hlm : legal_moves cfg0 3 = [((1, 0, 0), 1)] := by decide
      rw [hlm]
      exact List.mem_singleton.mpr rfl
    exact claim_C7.1 3 ((1, 0, 0), 1) hmem
  · exact claim_C7.2 3 (by decide)

/-- The initial-state computation `(1u128 << TOT) - 1` of `main`, under
its actual build-time semantics.  `TOT` is a `const`, so the shift
amount is a compile-time constant: a shift amount of 128 or more in a
`u128` shift is rejected by rustc's deny-by-default arithmetic-overflow
check as a fatal build error, in every profile, before any code runs.
The computation therefore either fails the build (`Except.error`) or
yields the untruncated all-blocks board (`Except.ok`). -/
def initial_state_checked (tot : Nat) : Except Unit Nat :=
  if 128 ≤ tot then Except.error ()
  else Except.ok ((1 <<< tot) - 1)

/-- **C8.** A configuration whose `TOT` exceeds the 128-bit state width
is caught before the search begins and reported as a fatal
(build-time) configuration failure — the initial-state computation
never yields a truncated state for such a `TOT` — while the shipped
configuration (`TOT = 114`) builds and produces the full 114-block
initial state. -/
theorem claim_C8 :
    (∀ tot : Nat, 128 < tot → initial_state_checked tot = Except.error ()) ∧
    initial_state_checked cfg0.TOT = Except.ok (2 ^ 114 - 1) := by
  constructor
  · intro tot h
    rw [initial_state_checked, if_pos (by omega)]
  · rfl

/-- Witness for **C8**: the oversized configuration `2 × 3 × 22`
(`TOT = 132 > 128`) is rejected before any search. -/
theorem claim_C8_witness : initial_state_checked (2 * 3 * 22) = Except.error () :=
  claim_C8.1 (2 * 3 * 22) (by decide)

/-- **C9.** Under the shipped configuration, `index_to_coord` maps the
block indices `[0, TOT)` bijectively onto the coordinate box
`[0, X_DIM) × [0, Y_DIM) × [0, Z_DIM)` (it lands in the box, is
injective, and is surjective onto the box), and index `0` maps to the
origin `(0,0,0)`. -/
theorem claim_C9 :
    (∀ i, i < cfg0.TOT →
        (index_to_coord cfg0 i).1 < cfg0.X_DIM ∧
        (index_to_coord cfg0 i).2.1 < cfg0.Y_DIM ∧
        (index_to_coord cfg0 i).2.2 < cfg0.Z_DIM) ∧
    (∀ i, i < cfg0.TOT → ∀ j, j < cfg0.TOT →
        index_to_coord cfg0 i = index_to_coord cfg0 j → i = j) ∧
    (∀ x, x < cfg0.X_DIM → ∀ y, y < cfg0.Y_DIM → ∀ z, z < cfg0.Z_DIM →
        ∃ i, i < cfg0.TOT ∧ index_to_coord cfg0 i = (x, y, z)) ∧
    index_to_coord cfg0 0 = (0, 0, 0) := by
  exact ⟨by decide, cfg0_index_injective, cfg0_index_surjective, rfl⟩

/-- Witness for **C9**: index `7` lands inside the coordinate box. -/
theorem claim_C9_witness :
    (index_to_coord cfg0 7).1 < cfg0.X_DIM ∧
      (index_to_coord cfg0 7).2.1 < cfg0.Y_DIM ∧
      (index_to_coord cfg0 7).2.2 < cfg0.Z_DIM :=
  claim_C9.1 7 (by decide)

/-- **C10.** For every board state, `winning_moves` is non-empty exactly
when `win` returns `true`; the terminal state `1` and the empty state
`0` both yield `win = false` and an empty winning-move list. -/
theorem claim_C10 :
    (∀ state : Nat, winning_moves cfg0 state ≠ [] ↔ win cfg0 state = true) ∧
    win cfg0 1 = false ∧ winning_moves cfg0 1 = [] ∧
    win cfg0 0 = false ∧ winning_moves cfg0 0 = [] := by
  have hlm1 : legal_moves cfg0 1 = [] := by decide
  have hlm0 : legal_moves cfg0 0 = [] := by decide
  refine ⟨?_, ?_, ?_, ?_, ?_⟩
  · intro state
    by_cases h1 : state = 1
    · subst h1
      rw [winning_moves, hlm1, win_eq_any, if_pos rfl]
      simp
    · rw [winning_moves, win_eq_any, if_neg h1]
      rw [Ne, List.filterMap_eq_nil_iff, List.any_eq_true]
      constructor
      · intro h
        rcases not_forall.mp h with ⟨mv, hmv⟩
        rcases Classical.not_imp.mp hmv with ⟨hmem, hnone⟩
        refine ⟨mv, hmem, ?_⟩
        by_cases hw : (!win cfg0 mv.2) = true
        · exact hw
        · exact absurd (if_neg hw) hnone
      · rintro ⟨mv, hmem, hV⟩ hall
        have hx := hall mv hmem
        rw [if_pos hV] at hx
        exact Option.noConfusion hx
  · rw [win_eq_any, if_pos rfl]
  · rw [winning_moves, hlm1]
    rfl
  · rw [win_eq_any, if_neg (by decide), hlm0]
    rfl
  · rw [winning_moves, hlm0]
    rfl
